import Mathlib

/-!
# Verification of the AWS environment collection engine
  (`securicad/enterprise/aws_import_cli.py`)

This file gives a shallow embedding, in Lean 4, of the core of the
collection engine: the backoff caller `api_call`, the chunked-fetch
adapter `fake_paginate`, the task scheduler's result merge
(`execute_tasks`), the enrichment tasks' per-item error handling
(`s3api_list_buckets`, `iam_list_users`), the input/output JSON schemas
(`CONFIG_SCHEMA`, `OUTPUT_SCHEMA`), and the account/region orchestration
loop of `import_cli`.  Remote calls are modelled by explicit oracles
(functions supplying the outcome of each call); Python exceptions are
modelled by `Except`/explicit outcome types; Python dicts by association
lists.  Theorems about these definitions settle the specification claims.
-/

namespace AwsImportCli

/-! ## Constants (from the source) -/

/-- `MAX_RETRIES = 4` in the source. -/
def MAX_RETRIES : Nat := 4

/-- `PARSER_VERSION = 8` in the source. -/
def PARSER_VERSION : Int := 8

/-! ## Backoff caller: `api_call`

The wrapped remote call is modelled by a script `Nat → CallResult α`
giving the outcome of the k-th invocation (0-indexed): either a value or
a raised `botocore` `ClientError` carrying an error code string.
-/

/-- Outcome of one invocation of the wrapped function: success, or a
`ClientError` with the given error code. -/
inductive CallResult (α : Type) where
  | ok : α → CallResult α
  | clientError : String → CallResult α
deriving DecidableEq, Repr

/-- Result of `api_call`: a returned value, a re-raised `ClientError`
(with its code), or the implicit `None` returned in Python when the
`for retry in range(MAX_RETRIES)` loop is exhausted without returning
or raising. -/
inductive ApiResult (α : Type) where
  | value : α → ApiResult α
  | raised : String → ApiResult α
  | fellThrough : ApiResult α
deriving DecidableEq, Repr

/-- Observable trace of one `api_call` invocation: its result, the
number of times the wrapped function was invoked, and the list of
`time.sleep` durations performed, in order. -/
structure ApiTrace (α : Type) where
  result : ApiResult α
  attempts : Nat
  sleeps : List Nat
deriving DecidableEq, Repr

/-- The loop body of `api_call`: `retry` is the current loop index and
`remaining` the number of loop iterations left.  On a `ClientError` with
code `"Throttling"` the code sleeps `2 ** retry` and continues; any
other `ClientError` is re-raised at once; exhausting the loop returns
Python's implicit `None` (`fellThrough`). -/
def apiCallLoop (script : Nat → CallResult α) : Nat → Nat → ApiTrace α
  | _, 0 => ⟨.fellThrough, 0, []⟩
  | retry, remaining + 1 =>
    match script retry with
    | .ok v => ⟨.value v, 1, []⟩
    | .clientError code =>
      if code = "Throttling" then
        let t := apiCallLoop script (retry + 1) remaining
        ⟨t.result, t.attempts + 1, 2 ^ retry :: t.sleeps⟩
      else ⟨.raised code, 1, []⟩

/-- `api_call` (aws_import_cli.py lines 191-204; identically in the
stand-alone variant's lines 112-125): `for retry in range(MAX_RETRIES)`. -/
def apiCall (script : Nat → CallResult α) : ApiTrace α :=
  apiCallLoop script 0 MAX_RETRIES

/-! ## Chunked fetch: `fake_paginate`

`fake_paginate(client, func, request_key, response_key, param, n, items)`
splits `items` into successive batches of size `n` and issues one
`unpaginated` call per batch, concatenating the per-call result lists.
The underlying call (with the batch bound to `request_key` in `param`)
is modelled by the oracle `call : List ι → List β`.  The `while` loop is
modelled with explicit fuel (`none` = the loop failed to terminate
within the fuel, which happens exactly when `n = 0` and `items ≠ []`);
alongside the concatenated result we record the list of batches passed
to the underlying call, so that the number and contents of the issued
calls can be stated. -/
def fakePaginateLoop (call : List ι → List β) (n : Nat) :
    Nat → List ι → Option (List β × List (List ι))
  | _, [] => some ([], [])
  | 0, _ :: _ => none
  | fuel + 1, x :: xs =>
    match fakePaginateLoop call n fuel ((x :: xs).drop n) with
    | none => none
    | some (rest, batches) =>
      some (call ((x :: xs).take n) ++ rest, (x :: xs).take n :: batches)

/-- `fake_paginate` (aws_import_cli.py lines 495-504), with fuel
`items.length` (sufficient whenever `n ≥ 1`). -/
def fakePaginate (call : List ι → List β) (n : Nat) (items : List ι) :
    Option (List β × List (List ι)) :=
  fakePaginateLoop call n items.length items

/-! ## Task scheduler: `execute_tasks`

A completed task yields a pair `(names, result)`; the scheduler walks
`names[:-1]` through the nested output dict, creating empty sub-dicts as
needed, and assigns `result` at `names[-1]`.  Python dicts are modelled
as association lists (assignment replaces in place, insertion appends at
the end, matching CPython's preserved insertion order); the values in
the output dict are either a task result (`leaf`) or a nested sub-dict
(`dict`).  Completion order is modelled by the order of the task list.
-/

/-- A value stored in the scheduler's output: a task result, or a nested
sub-dict created while walking the intermediate path segments. -/
inductive PyObj (α : Type) where
  | leaf : α → PyObj α
  | dict : List (String × PyObj α) → PyObj α

/-- Lookup in a Python dict (association list). -/
def getk : List (String × β) → String → Option β
  | [], _ => none
  | (k, v) :: rest, key => if k = key then some v else getk rest key

/-- Assignment `d[key] = val` in a Python dict: replaces the binding in
place if the key is present, otherwise appends it at the end. -/
def setk : List (String × β) → String → β → List (String × β)
  | [], key, val => [(key, val)]
  | (k, v) :: rest, key, val =>
    if k = key then (key, val) :: rest else (k, v) :: setk rest key val

/-- A completed collection task's contribution: its result path `names`
(1-2 segments for every task in the source) and its result value. -/
structure Task (α : Type) where
  path : List String
  value : α
deriving DecidableEq, Repr

/-- The merge step of `execute_tasks` (aws_import_cli.py lines 172-178):
walk `names[:-1]`, creating `{}` for absent segments, then assign the
result at `names[-1]`.  An empty path (Python `names[-1]` on an empty
list raises `IndexError`) and walking into a previously assigned
non-dict value (whose Python behavior depends on the runtime type of,
and aliasing to, the stored task result) are modelled as errors; neither
occurs for non-colliding paths. -/
def mergeResult : List String → List (String × PyObj α) → α →
    Except Unit (List (String × PyObj α))
  | [], _, _ => .error ()
  | [last], obj, v => .ok (setk obj last (.leaf v))
  | name :: n2 :: rest, obj, v =>
    match getk obj name with
    | none =>
      match mergeResult (n2 :: rest) [] v with
      | .error e => .error e
      | .ok sub => .ok (setk obj name (.dict sub))
    | some (.dict sub) =>
      match mergeResult (n2 :: rest) sub v with
      | .error e => .error e
      | .ok sub2 => .ok (setk obj name (.dict sub2))
    | some (.leaf _) => .error ()

/-- The `as_completed` loop of `execute_tasks`: merge each completed
task's `(names, result)` into the output dict, in completion order. -/
def mergeAll : List (Task α) → List (String × PyObj α) →
    Except Unit (List (String × PyObj α))
  | [], obj => .ok obj
  | t :: rest, obj =>
    match mergeResult t.path obj t.value with
    | .error e => .error e
    | .ok obj2 => mergeAll rest obj2

/-- `execute_tasks` (aws_import_cli.py lines 157-179) restricted to its
merge semantics: fold the merge step over the tasks in completion
order, starting from the empty output dict. -/
def executeTasks (tasks : List (Task α)) :
    Except Unit (List (String × PyObj α)) :=
  mergeAll tasks []

/-- Follow a full path through the output dict down to a task result
(`leaf`); `none` if the path ends early, at a sub-dict, or past a leaf. -/
def lookupLeafPath : List String → List (String × PyObj α) → Option α
  | [], _ => none
  | [k], obj =>
    match getk obj k with
    | some (.leaf v) => some v
    | _ => none
  | k :: k2 :: rest, obj =>
    match getk obj k with
    | some (.dict sub) => lookupLeafPath (k2 :: rest) sub
    | _ => none

mutual

/-- Number of task results (`leaf` values) stored inside one value of an
output dict. -/
def objLeafCount : PyObj α → Nat
  | .leaf _ => 1
  | .dict sub => countLeaves sub

/-- Number of task results (`leaf` values) stored anywhere in an output
dict. -/
def countLeaves : List (String × PyObj α) → Nat
  | [] => 0
  | (_, o) :: rest => objLeafCount o + countLeaves rest

end

/-- Two result paths do not collide (§3 of the spec): neither is a
prefix of the other.  For 1-2 segment paths this is exactly: no shared
one-segment key, one-segment keys distinct from two-segment first
segments, and no repeated two-segment path. -/
def PathsDisjoint (p q : List String) : Prop :=
  ¬ p <+: q ∧ ¬ q <+: p

instance (p q : List String) : Decidable (PathsDisjoint p q) := by
  unfold PathsDisjoint; infer_instance

/-! ## Enrichment tasks: per-item sub-resource lookups

The observable outcome of one sub-resource lookup (the `unpaginated`
call together with the subsequent extraction of the expected field) is:
a value, a raised `ClientError` with a code, a raised `KeyError`
(expected field missing from the response), or any other raised
exception (e.g. the `TypeError`/`json` errors that arise outside the
`except` clauses).  The `except (KeyError, ClientError)` clauses of the
S3 task catch exactly the middle two; `otherExc` propagates everywhere. -/
inductive SubOutcome (β : Type) where
  | ok : β → SubOutcome β
  | clientError : String → SubOutcome β
  | keyError : SubOutcome β
  | otherExc : String → SubOutcome β
deriving DecidableEq, Repr

/-- One bucket dict after `s3api_list_buckets` has processed it: the
`Encryption`, `Policy` and `Tags` keys are set only when their lookup
succeeded; `Public` is set to the looked-up value or to `False`. -/
structure S3BucketOut (β : Type) where
  name : String
  encryption : Option β
  public : Bool
  policy : Option β
  tags : Option β
deriving DecidableEq, Repr

/-- The S3 environment seen by `s3api_list_buckets`: the bucket names
returned by `list_buckets` and, per bucket name, the outcome of each
sub-resource lookup (call plus field extraction, for
`get_bucket_encryption`/`get_bucket_policy_status`/`get_bucket_policy`/
`get_bucket_tagging`). -/
structure S3Api (β : Type) where
  buckets : List String
  getBucketEncryption : String → SubOutcome β
  getBucketPolicyStatus : String → SubOutcome Bool
  getBucketPolicy : String → SubOutcome β
  getBucketTagging : String → SubOutcome β

/-- One `except (KeyError, ClientError)`-guarded optional enrichment of
the S3 task: a raised `ClientError` or `KeyError` is swallowed (`pass`),
leaving the field absent; other exceptions propagate. -/
def s3OptField : SubOutcome β → Except String (Option β)
  | .ok v => .ok (some v)
  | .clientError _ => .ok none
  | .keyError => .ok none
  | .otherExc e => .error e

/-- The `Public` enrichment of the S3 task: on `ClientError` or
`KeyError` the bucket's `Public` field is set to `False`. -/
def s3PublicField : SubOutcome Bool → Except String Bool
  | .ok b => .ok b
  | .clientError _ => .ok false
  | .keyError => .ok false
  | .otherExc e => .error e

/-- The per-bucket enrichment loop of `s3api_list_buckets`: process the
bucket names in order, the first propagating exception aborting the
task. -/
def s3EnrichBuckets (api : S3Api β) :
    List String → Except String (List (S3BucketOut β))
  | [] => .ok []
  | name :: rest => do
    let enc ← s3OptField (api.getBucketEncryption name)
    let pub ← s3PublicField (api.getBucketPolicyStatus name)
    let pol ← s3OptField (api.getBucketPolicy name)
    let tags ← s3OptField (api.getBucketTagging name)
    let tail ← s3EnrichBuckets api rest
    .ok (⟨name, enc, pub, pol, tags⟩ :: tail)

/-- `s3api_list_buckets` (aws_import_cli.py lines 435-474), reduced to
its per-bucket enrichment structure: for each bucket, attach
encryption, policy status, policy and tags via the guarded lookups. -/
def s3apiListBuckets (api : S3Api β) : Except String (List (S3BucketOut β)) :=
  s3EnrichBuckets api api.buckets

/-- The login-profile enrichment of `iam_list_users` (aws_import_cli.py
lines 322-331), per user: `get_login_profile` is guarded by
`except ClientError` with an explicit code check — code `"NoSuchEntity"`
records `HasLoginProfile = None`, any other `ClientError` is re-raised;
a `KeyError` or other exception is not caught there and propagates. -/
def iamLoginProfileField : SubOutcome β → Except String (Option β)
  | .ok v => .ok (some v)
  | .clientError code =>
    if code = "NoSuchEntity" then .ok none else .error code
  | .keyError => .error "KeyError"
  | .otherExc e => .error e

/-- The login-profile portion of the `iam_list_users` task: enrich each
user, in order, with the outcome of its `get_login_profile` lookup; the
first propagating exception aborts the task. -/
def iamListUsersLogin (users : List String)
    (getLoginProfile : String → SubOutcome β) :
    Except String (List (String × Option β)) :=
  match users with
  | [] => .ok []
  | u :: rest => do
    let lp ← iamLoginProfileField (getLoginProfile u)
    let tail ← iamListUsersLogin rest getLoginProfile
    .ok ((u, lp) :: tail)

/-! ## Schema validation

`jsonschema.validate` applied to the two fixed schema documents of the
source.  JSON values are the usual inductive; the validators below are
the standard JSON-Schema semantics of exactly those schema documents
(type / properties / additionalProperties / required / minItems /
minLength / minimum / maximum).  Unknown keywords are ignored by
`jsonschema`; note that `CONFIG_SCHEMA`'s account definition (line 69 of
the source) spells its requiredness keyword `"requried"`, which is
therefore ignored — the account schema imposes no presence requirement
on `access_key`, `secret_key` or `regions`. -/
inductive Json where
  | str : String → Json
  | int : Int → Json
  | bool : Bool → Json
  | arr : List Json → Json
  | obj : List (String × Json) → Json
  | null : Json

/-- `#/definitions/string` of `CONFIG_SCHEMA`: `type: string`,
`minLength: 1`. -/
def validString : Json → Bool
  | .str s => decide (1 ≤ s.length)
  | _ => false

/-- The `regions` property schema of a `CONFIG_SCHEMA` account:
`type: array`, items `#/definitions/string`, `minItems: 1`. -/
def validRegionsField : Json → Bool
  | .arr l => decide (1 ≤ l.length) && l.all validString
  | _ => false

/-- `#/definitions/account` of `CONFIG_SCHEMA`: an object whose present
properties are among `access_key`/`secret_key`/`regions` and validate
(`additionalProperties: false`); the misspelled `"requried"` keyword is
ignored, so none of the three has to be present. -/
def validAccountEntry : Json → Bool
  | .obj props =>
    props.all fun kv =>
      if kv.1 = "access_key" then validString kv.2
      else if kv.1 = "secret_key" then validString kv.2
      else if kv.1 = "regions" then validRegionsField kv.2
      else false
  | _ => false

/-- The `accounts` property schema of `CONFIG_SCHEMA`: `type: array`,
items `#/definitions/account`, `minItems: 1`. -/
def validAccountsField : Json → Bool
  | .arr l => decide (1 ≤ l.length) && l.all validAccountEntry
  | _ => false

/-- `jsonschema.validate(instance, CONFIG_SCHEMA)` (aws_import_cli.py
lines 44-83, applied at line 1055 before any network call): an object
with `accounts` present (`required`), no other key
(`additionalProperties: false`), validating as above. -/
def validateConfigSchema : Json → Bool
  | .obj props =>
    (props.any fun kv => kv.1 = "accounts") &&
      props.all fun kv =>
        if kv.1 = "accounts" then validAccountsField kv.2 else false
  | _ => false

/-- The `parser_version` property clause of `OUTPUT_SCHEMA`
(aws_import_cli.py lines 133-138): `type: integer`,
`minimum: PARSER_VERSION`, `maximum: PARSER_VERSION`. -/
def outputSchemaParserVersionOk : Json → Bool
  | .int n => decide (PARSER_VERSION ≤ n) && decide (n ≤ PARSER_VERSION)
  | _ => false

/-! ## Orchestration: `import_cli`

The account/region loop of `import_cli` (aws_import_cli.py lines
1098-1127).  All remote interaction is abstracted by an environment of
oracles keyed by the account entry (credentials determine the session):
the resolved account id (`sts get_caller_identity`), the account
aliases, the collected global-services data, the provider's published
region list (`session.get_available_regions("ec2")`), and the collected
per-region data.  The final `jsonschema` output validation and the
datetime-serializing JSON round-trip are outside this model (they do not
alter the structure stated about below). -/

/-- One account entry of the input configuration. -/
structure AccountEntry where
  access_key : String
  secret_key : String
  regions : List String
deriving DecidableEq, Repr

/-- Oracles for the remote provider, parametrized by the types `γ` of
collected global-services data and `ρ` of collected per-region data. -/
structure Env (γ ρ : Type) where
  accountId : AccountEntry → String
  accountAliases : AccountEntry → List String
  globalServices : AccountEntry → γ
  availableRegions : AccountEntry → List String
  regionServices : AccountEntry → String → ρ

/-- One element of an account's output `regions` list: the collected
region data plus its `region_name`. -/
structure RegionOut (ρ : Type) where
  region_name : String
  data : ρ
deriving DecidableEq, Repr

/-- One element of the output `accounts` list. -/
structure AccountOut (γ ρ : Type) where
  account_id : String
  account_aliases : List String
  global : γ
  regions : List (RegionOut ρ)
deriving DecidableEq, Repr

/-- The document returned by `import_cli`. -/
structure Output (γ ρ : Type) where
  parser_version : Int
  accounts : List (AccountOut γ ρ)
deriving DecidableEq, Repr

/-- `get_valid_regions` (aws_import_cli.py lines 1088-1096): keep, in
configured order (duplicates included), the regions present in the
provider's published region list; log and drop the others. -/
def getValidRegions (available : List String) (regions : List String) :
    List String :=
  regions.filter fun r => decide (r ∈ available)

/-- The inner region loop of `import_cli` (lines 1116-1126): for each
valid region in order, skip it if its name is already in the account's
collected `regions` list, else append the region's data. -/
def buildRegions (env : Env γ ρ) (e : AccountEntry) :
    List String → List (RegionOut ρ) → List (RegionOut ρ)
  | [], acc => acc
  | r :: rest, acc =>
    if r ∈ acc.map fun x => x.region_name then
      buildRegions env e rest acc
    else
      buildRegions env e rest (acc ++ [⟨r, env.regionServices e r⟩])

/-- The completed output fragment for one processed account entry
(lines 1108-1127): identity and aliases, `global` data, and the
deduplicated valid-region data. -/
def mkAccountOut (env : Env γ ρ) (e : AccountEntry) : AccountOut γ ρ :=
  { account_id := env.accountId e
    account_aliases := env.accountAliases e
    global := env.globalServices e
    regions :=
      buildRegions env e
        (getValidRegions (env.availableRegions e) e.regions) [] }

/-- The account loop of `import_cli` (lines 1103-1127) with the output
accounts collected so far: skip an account whose resolved id is already
present, raise `ValueError("No valid AWS region found")` when no valid
region remains, else append the account's fragment. -/
def importCliAccounts (env : Env γ ρ) :
    List (AccountOut γ ρ) → List AccountEntry →
    Except String (List (AccountOut γ ρ))
  | acc, [] => .ok acc
  | acc, e :: rest =>
    if env.accountId e ∈ acc.map fun a => a.account_id then
      importCliAccounts env acc rest
    else
      if getValidRegions (env.availableRegions e) e.regions = [] then
        .error "No valid AWS region found"
      else importCliAccounts env (acc ++ [mkAccountOut env e]) rest

/-- `import_cli` (lines 1098-1136) after config validation: run the
account loop and wrap the result with `parser_version`. -/
def importCli (env : Env γ ρ) (config : List AccountEntry) :
    Except String (Output γ ρ) :=
  match importCliAccounts env [] config with
  | .error e => .error e
  | .ok accounts => .ok ⟨PARSER_VERSION, accounts⟩

/-! ## Specification helpers and witness fixtures

Definitions used only to state theorems and witnesses: first-occurrence
deduplication (to express order preservation), the entries of a
configuration that the account loop processes (skipping duplicates), a
freshness predicate on result paths, field extractors for sub-resource
outcomes, and concrete fixtures. -/

/-- A wrapped call that raises a `ClientError` with code `"Throttling"`
on every invocation. -/
def persistentThrottle : Nat → CallResult Nat :=
  fun _ => .clientError "Throttling"

/-- First-occurrence deduplication, also dropping elements of `seen`:
keeps, in order, each element of the list that is not in `seen` and has
not occurred earlier in the list. -/
def firstDedupFrom (seen : List String) : List String → List String
  | [] => []
  | r :: rest =>
    if r ∈ seen then firstDedupFrom seen rest
    else r :: firstDedupFrom (seen ++ [r]) rest

/-- The configuration entries the account loop processes (appends an
output fragment for), given the account ids `seen` so far: an entry is
skipped exactly when its resolved account id is in `seen` or equals the
resolved id of an earlier processed entry. -/
def selectEntries (env : Env γ ρ) (seen : List String) :
    List AccountEntry → List AccountEntry
  | [] => []
  | e :: rest =>
    if env.accountId e ∈ seen then selectEntries env seen rest
    else e :: selectEntries env (seen ++ [env.accountId e]) rest

/-- The walk of a (nonempty) result path through an output dict meets
only absent keys or sub-dicts, and its final position is absent: merging
at such a path cannot destroy or be blocked by existing data. -/
def Fresh : List String → List (String × PyObj α) → Prop
  | [], _ => False
  | [k], obj => getk obj k = none
  | k :: k2 :: rest, obj =>
    getk obj k = none ∨
      ∃ sub, getk obj k = some (.dict sub) ∧ Fresh (k2 :: rest) sub

/-- The value recorded for an optional enrichment field: present on a
successful lookup, absent otherwise. -/
def subOpt : SubOutcome β → Option β
  | .ok v => some v
  | _ => none

/-- The value recorded for the S3 `Public` field: the looked-up value on
success, `False` otherwise. -/
def subPublic : SubOutcome Bool → Bool
  | .ok b => b
  | _ => false

/-- A login-profile lookup outcome the IAM task tolerates: success, or a
`ClientError` with code `"NoSuchEntity"`. -/
def subOkOrNoSuch (o : SubOutcome β) : Prop :=
  (∃ v, o = .ok v) ∨ o = .clientError "NoSuchEntity"

/-- A sub-resource lookup outcome that raises no exception outside
`KeyError`/`ClientError` (the only exception classes the S3 task's
`except` clauses name). -/
def subNotOther (o : SubOutcome β) : Prop :=
  ∀ e, o ≠ SubOutcome.otherExc e

/-- Fixture: a provider environment for the orchestration witnesses. -/
def witEnv : Env Nat Nat where
  accountId := fun e => e.access_key
  accountAliases := fun _ => ["alias1"]
  globalServices := fun _ => 5
  availableRegions := fun _ => ["us-east-1", "eu-west-1"]
  regionServices := fun _ _ => 6

/-- Fixture: a configuration with a duplicate account id (second entry),
an invalid region, and duplicate regions. -/
def witConfig : List AccountEntry :=
  [⟨"AKIA1", "s1", ["us-east-1", "bogus-region", "us-east-1", "eu-west-1"]⟩,
   ⟨"AKIA1", "s2", ["eu-west-1"]⟩,
   ⟨"AKIA2", "s3", ["eu-west-1", "eu-west-1"]⟩]

/-- Fixture: a configuration whose only account has no valid region. -/
def witConfigBad : List AccountEntry := [⟨"AKIA9", "s", ["nowhere"]⟩]

/-- Fixture: the document `importCli` returns on `witEnv`/`witConfig`. -/
def witOut : Output Nat Nat :=
  ⟨8, [⟨"AKIA1", ["alias1"], 5, [⟨"us-east-1", 6⟩, ⟨"eu-west-1", 6⟩]⟩,
       ⟨"AKIA2", ["alias1"], 5, [⟨"eu-west-1", 6⟩]⟩]⟩

/-- Fixture: tasks with non-colliding 1-2 segment paths. -/
def witTasks : List (Task Nat) :=
  [⟨["iam", "Users"], 1⟩, ⟨["iam", "Roles"], 2⟩, ⟨["s3buckets"], 3⟩]

/-- Fixture: the same tasks in the reverse completion order. -/
def witTasks2 : List (Task Nat) :=
  [⟨["s3buckets"], 3⟩, ⟨["iam", "Roles"], 2⟩, ⟨["iam", "Users"], 1⟩]

/-- Fixture: an S3 environment whose bucket policy lookup fails with the
unexpected provider error `"AccessDenied"` and whose tagging lookup
raises `KeyError`. -/
def witS3Api : S3Api Nat where
  buckets := ["bucketA"]
  getBucketEncryption := fun _ => .ok 1
  getBucketPolicyStatus := fun _ => .ok true
  getBucketPolicy := fun _ => .clientError "AccessDenied"
  getBucketTagging := fun _ => .keyError

/-- Fixture: a login-profile oracle failing with `"NoSuchEntity"` for
every user. -/
def witNoSuch : String → SubOutcome Nat :=
  fun _ => .clientError "NoSuchEntity"

/-- Fixture: a login-profile oracle failing with the unexpected code
`"AccessDenied"` for the user `"bob"` and `"NoSuchEntity"` otherwise. -/
def witMixed : String → SubOutcome Nat :=
  fun u => if u = "bob" then .clientError "AccessDenied"
           else .clientError "NoSuchEntity"

/-! ## Lemmas and claim theorems -/

/-! ### Backoff caller (claims C1, C4) -/

lemma apiCallLoop_attempts_le (script : Nat → CallResult α) :
    ∀ rem retry, (apiCallLoop script retry rem).attempts ≤ rem := by
  intro rem
  induction rem with
  | zero => intro retry; simp [apiCallLoop]
  | succ rem ih =>
    intro retry
    simp only [apiCallLoop]
    cases script retry with
    | ok v => simp
    | clientError code =>
      dsimp only
      by_cases hc : code = "Throttling"
      · rw [if_pos hc]
        have := ih (retry + 1)
        simpa using Nat.succ_le_succ this
      · rw [if_neg hc]
        simp

lemma apiCallLoop_sleeps_eq (script : Nat → CallResult α) :
    ∀ rem retry, ∃ m,
      (apiCallLoop script retry rem).sleeps =
        (List.range m).map (fun j => 2 ^ (retry + j)) := by
  intro rem
  induction rem with
  | zero => intro retry; exact ⟨0, by simp [apiCallLoop]⟩
  | succ rem ih =>
    intro retry
    simp only [apiCallLoop]
    cases script retry with
    | ok v => exact ⟨0, by simp⟩
    | clientError code =>
      dsimp only
      by_cases hc : code = "Throttling"
      · rw [if_pos hc]
        obtain ⟨m, hm⟩ := ih (retry + 1)
        refine ⟨m + 1, ?_⟩
        rw [hm, List.range_succ_eq_map, List.map_cons, List.map_map]
        simp only [Nat.add_zero]
        congr 1
        apply List.map_congr_left
        intro j hj
        simp only [Function.comp_apply]
        congr 1
        omega
      · rw [if_neg hc]
        exact ⟨0, by simp⟩

/-- C1: the claim states that exhausting the 4 attempts on a persistent
throttle propagates the final throttling failure.  The code does not: the
`for retry in range(MAX_RETRIES)` loop of `api_call` has no `else`/final
`raise`, so after the fourth throttled attempt the function falls off the
loop and returns Python's implicit `None` — a non-error result — instead
of re-raising.  This theorem evaluates the model at the failing input
(and shows the second half of the claim, immediate propagation of a
non-throttling failure, does hold). -/
theorem claim_C1 :
    apiCall persistentThrottle = ⟨.fellThrough, 4, [1, 2, 4, 8]⟩ ∧
    apiCall (fun _ => CallResult.clientError "AccessDenied" (α := Nat)) =
      ⟨.raised "AccessDenied", 1, []⟩ := by
  exact ⟨rfl, rfl⟩

/-- C4: every `api_call` invocation attempts the wrapped call at most
`MAX_RETRIES = 4` times; the i-th sleep performed (0-indexed, the one
inserted before attempt `i + 2`) lasts `2 ^ i` time units; and the whole
trace is a deterministic function of the wrapped call's outcomes, hence
identical on every replay of the same throttling scenario. -/
theorem claim_C4 (α : Type) (script : Nat → CallResult α) :
    (apiCall script).attempts ≤ MAX_RETRIES ∧
    (∀ i, i < (apiCall script).sleeps.length →
        (apiCall script).sleeps[i]? = some (2 ^ i)) ∧
    (∀ script2 : Nat → CallResult α, (∀ k, script2 k = script k) →
        apiCall script2 = apiCall script) := by
  refine ⟨apiCallLoop_attempts_le script MAX_RETRIES 0, ?_, ?_⟩
  · intro i h
    obtain ⟨m, hm⟩ := apiCallLoop_sleeps_eq script MAX_RETRIES 0
    have hm2 : (apiCall script).sleeps =
        (List.range m).map (fun j => 2 ^ (0 + j)) := hm
    have hlt : i < m := by
      rw [hm2] at h
      simpa using h
    rw [hm2, List.getElem?_map, List.getElem?_range hlt]
    simp
  · intro script2 hpt
    have : script2 = script := funext hpt
    rw [this]

/-- Witness for C4 at the persistent-throttle scenario. -/
theorem claim_C4_witness :
    (apiCall persistentThrottle).attempts ≤ MAX_RETRIES ∧
    (apiCall persistentThrottle).sleeps[1]? = some (2 ^ 1) ∧
    apiCall persistentThrottle = apiCall persistentThrottle := by
  obtain ⟨h1, h2, h3⟩ := claim_C4 Nat persistentThrottle
  exact ⟨h1, h2 1 (by decide), h3 persistentThrottle (fun k => rfl)⟩

/-! ### Input schema (claim C2) -/

/-- C2: the claim states that every configuration accepted by the input
schema has, in each account entry, a non-empty `access_key`, a non-empty
`secret_key` and a non-empty `regions` list.  The code does not enforce
this: `CONFIG_SCHEMA`'s account definition spells its requiredness
keyword `"requried"` (source line 69), an unknown keyword that
`jsonschema` ignores, so the empty account entry `{}` — with no
credentials and no regions at all — passes validation.  The second
conjunct shows the validator is otherwise non-trivial: a present but
empty `access_key` is rejected. -/
theorem claim_C2 :
    validateConfigSchema (Json.obj [("accounts", Json.arr [Json.obj []])]) =
      true ∧
    validateConfigSchema
      (Json.obj [("accounts", Json.arr
        [Json.obj [("access_key", Json.str "")]])]) = false := by
  exact ⟨rfl, rfl⟩

/-! ### Chunked fetch (claim C5) -/

lemma fakePaginateLoop_spec (call : List ι → List β) (n : Nat)
    (hn : 1 ≤ n) :
    ∀ fuel items, List.length items ≤ fuel →
      ∃ res batches,
        fakePaginateLoop call n fuel items = some (res, batches) ∧
        res = (batches.map call).flatten ∧
        batches.length = (items.length + n - 1) / n ∧
        ∀ i (h : i < batches.length),
          batches.get ⟨i, h⟩ = (items.drop (n * i)).take n := by
  intro fuel
  induction fuel with
  | zero =>
    intro items hlen
    have : items = [] := List.length_eq_zero.mp (Nat.le_zero.mp hlen)
    subst this
    refine ⟨[], [], rfl, rfl, ?_, ?_⟩
    · simpa using (Nat.div_eq_of_lt (by omega)).symm
    · intro i h; simp at h
  | succ fuel ih =>
    intro items hlen
    match items with
    | [] =>
      refine ⟨[], [], rfl, rfl, ?_, ?_⟩
      · simpa using (Nat.div_eq_of_lt (by omega)).symm
      · intro i h; simp at h
    | x :: xs =>
      simp only [List.length_cons] at hlen
      have hlen2 : ((x :: xs).drop n).length ≤ fuel := by
        simp only [List.length_drop, List.length_cons]
        omega
      obtain ⟨res, batches, heq, hres, hblen, hbget⟩ := ih _ hlen2
      refine ⟨call ((x :: xs).take n) ++ res, (x :: xs).take n :: batches,
        ?_, ?_, ?_, ?_⟩
      · simp only [fakePaginateLoop, heq]
      · simp [hres]
      · simp only [List.length_drop, List.length_cons] at hblen
        have hstep : batches.length = (xs.length + 1 - 1) / n := by
          rw [hblen]
          by_cases hc : n ≤ xs.length + 1
          · congr 1
            omega
          · have h1 : xs.length + 1 - n = 0 := by omega
            rw [h1]
            rw [Nat.div_eq_of_lt (by omega), Nat.div_eq_of_lt (by omega)]
        have h2 : xs.length + 1 + n - 1 = (xs.length + 1 - 1) + n := by omega
        simp only [List.length_cons]
        rw [hstep, h2, Nat.add_div_right _ (by omega : 0 < n)]
      · intro i h
        match i with
        | 0 => simp
        | Nat.succ i =>
          simp only [List.length_cons, Nat.succ_lt_succ_iff] at h
          have hg := hbget i h
          simp only [List.get_cons_succ]
          rw [hg, List.drop_drop]
          congr 2
          rw [Nat.succ_eq_add_one]
          ring

/-- C5: for every chunk size `n ≥ 1`, `fake_paginate` terminates and
issues exactly `⌈items.length / n⌉` underlying calls; the i-th call's
id-batch is the i-th successive slice of `items` of size `n` (the last
possibly smaller); the returned data is the concatenation of the calls'
result lists in that order; and an empty `items` list yields an empty
result with no call issued. -/
theorem claim_C5 (call : List ι → List β) (n : Nat) (items : List ι)
    (hn : 1 ≤ n) :
    ∃ res batches,
      fakePaginate call n items = some (res, batches) ∧
      batches.length = (items.length + n - 1) / n ∧
      (∀ i (h : i < batches.length),
          batches.get ⟨i, h⟩ = (items.drop (n * i)).take n) ∧
      res = (batches.map call).flatten ∧
      (items = [] → res = [] ∧ batches = []) := by
  obtain ⟨res, batches, heq, hres, hblen, hbget⟩ :=
    fakePaginateLoop_spec call n hn items.length items le_rfl
  refine ⟨res, batches, heq, hblen, hbget, hres, ?_⟩
  intro hempty
  subst hempty
  have : batches.length = 0 := by
    rw [hblen]
    simpa using Nat.div_eq_of_lt (by omega)
  have hb : batches = [] := List.length_eq_zero.mp this
  subst hb
  simp [hres]

/-- Witness for C5: chunk size 2 over 5 ids. -/
theorem claim_C5_witness :
    ∃ res batches,
      fakePaginate (fun l => l) 2 [1, 2, 3, 4, 5] = some (res, batches) ∧
      batches.length = ([1, 2, 3, 4, 5].length + 2 - 1) / 2 ∧
      (∀ i (h : i < batches.length),
          batches.get ⟨i, h⟩ = ([1, 2, 3, 4, 5].drop (2 * i)).take 2) ∧
      res = (batches.map (fun l => l)).flatten ∧
      ([1, 2, 3, 4, 5] = ([] : List Nat) → res = [] ∧ batches = []) :=
  claim_C5 (fun l => l) 2 [1, 2, 3, 4, 5] (by decide)

/-! ### Orchestration lemmas (claims C7-C10) -/

lemma buildRegions_eq (env : Env γ ρ) (e : AccountEntry) :
    ∀ rs acc, buildRegions env e rs acc =
      acc ++ (firstDedupFrom (acc.map fun x => x.region_name) rs).map
        (fun r => ⟨r, env.regionServices e r⟩) := by
  intro rs
  induction rs with
  | nil => intro acc; simp [buildRegions, firstDedupFrom]
  | cons r rest ih =>
    intro acc
    simp only [buildRegions, firstDedupFrom]
    by_cases hr : r ∈ acc.map fun x => x.region_name
    · rw [if_pos hr, if_pos hr, ih]
    · rw [if_neg hr, if_neg hr, ih]
      simp [List.map_append, List.append_assoc]

lemma mem_firstDedupFrom :
    ∀ (l : List String) seen x, x ∈ firstDedupFrom seen l ↔ x ∈ l ∧ x ∉ seen := by
  intro l
  induction l with
  | nil => intro seen x; simp [firstDedupFrom]
  | cons r rest ih =>
    intro seen x
    have hmem : ∀ y : String, y ∈ seen ++ [r] ↔ y ∈ seen ∨ y = r := by
      intro y; simp
    simp only [firstDedupFrom]
    by_cases hr : r ∈ seen
    · rw [if_pos hr, ih]
      simp only [List.mem_cons]
      constructor
      · rintro ⟨hx, hs⟩
        exact ⟨Or.inr hx, hs⟩
      · rintro ⟨hor, hs⟩
        cases hor with
        | inl h => exact absurd (h ▸ hr) hs
        | inr h => exact ⟨h, hs⟩
    · rw [if_neg hr]
      constructor
      · intro hx
        rcases List.mem_cons.mp hx with hxr | hx2
        · exact ⟨by simp [hxr], hxr ▸ hr⟩
        · obtain ⟨h1, h2⟩ := (ih _ _).mp hx2
          exact ⟨List.mem_cons_of_mem _ h1,
            fun c => h2 ((hmem x).mpr (Or.inl c))⟩
      · rintro ⟨hx, hs⟩
        rcases List.mem_cons.mp hx with hxr | hx2
        · exact hxr ▸ List.mem_cons_self _ _
        · by_cases hxr : x = r
          · exact hxr ▸ List.mem_cons_self _ _
          · refine List.mem_cons_of_mem _ ((ih _ _).mpr ⟨hx2, fun c => ?_⟩)
            rcases (hmem x).mp c with c | c
            · exact hs c
            · exact hxr c

lemma firstDedupFrom_nodup : ∀ (l : List String) seen,
    (firstDedupFrom seen l).Nodup := by
  intro l
  induction l with
  | nil => intro seen; simp [firstDedupFrom]
  | cons r rest ih =>
    intro seen
    simp only [firstDedupFrom]
    by_cases hr : r ∈ seen
    · rw [if_pos hr]; exact ih seen
    · rw [if_neg hr, List.nodup_cons]
      refine ⟨fun hmem => ?_, ih _⟩
      have := ((mem_firstDedupFrom _ _ _).mp hmem).2
      simp at this

lemma selectEntries_map_id (env : Env γ ρ) : ∀ config seen,
    (selectEntries env seen config).map env.accountId =
      firstDedupFrom seen (config.map env.accountId) := by
  intro config
  induction config with
  | nil => intro seen; simp [selectEntries, firstDedupFrom]
  | cons e rest ih =>
    intro seen
    simp only [selectEntries, List.map_cons, firstDedupFrom]
    by_cases he : env.accountId e ∈ seen
    · rw [if_pos he, if_pos he]
      exact ih seen
    · rw [if_neg he, if_neg he]
      simp [ih]

lemma mem_selectEntries_subset (env : Env γ ρ) : ∀ config seen e,
    e ∈ selectEntries env seen config → e ∈ config := by
  intro config
  induction config with
  | nil => intro seen e h; simp [selectEntries] at h
  | cons f rest ih =>
    intro seen e h
    simp only [selectEntries] at h
    by_cases hf : env.accountId f ∈ seen
    · rw [if_pos hf] at h
      exact List.mem_cons_of_mem _ (ih _ _ h)
    · rw [if_neg hf] at h
      rcases List.mem_cons.mp h with h | h
      · exact h ▸ List.mem_cons_self _ _
      · exact List.mem_cons_of_mem _ (ih _ _ h)

lemma mem_selectEntries_not_seen (env : Env γ ρ) : ∀ config seen e,
    e ∈ selectEntries env seen config → env.accountId e ∉ seen := by
  intro config
  induction config with
  | nil => intro seen e h; simp [selectEntries] at h
  | cons f rest ih =>
    intro seen e h
    simp only [selectEntries] at h
    by_cases hf : env.accountId f ∈ seen
    · rw [if_pos hf] at h
      exact ih _ _ h
    · rw [if_neg hf] at h
      rcases List.mem_cons.mp h with h | h
      · exact h ▸ hf
      · intro hc
        exact ih _ _ h (by simp [hc])

lemma selectEntries_find (env : Env γ ρ) : ∀ config seen e,
    e ∈ selectEntries env seen config →
    config.find? (fun f => env.accountId f == env.accountId e) = some e := by
  intro config
  induction config with
  | nil => intro seen e h; simp [selectEntries] at h
  | cons f rest ih =>
    intro seen e h
    simp only [selectEntries] at h
    by_cases hf : env.accountId f ∈ seen
    · rw [if_pos hf] at h
      have hne : (env.accountId f == env.accountId e) = false := by
        have := mem_selectEntries_not_seen env rest seen e h
        simp only [beq_eq_false_iff_ne, ne_eq]
        intro hc
        exact this (hc ▸ hf)
      simp only [List.find?_cons, hne]
      exact ih _ _ h
    · rw [if_neg hf] at h
      rcases List.mem_cons.mp h with h | h
      · subst h
        simp [List.find?_cons]
      · have hne : (env.accountId f == env.accountId e) = false := by
          have := mem_selectEntries_not_seen env rest _ e h
          simp only [beq_eq_false_iff_ne, ne_eq]
          intro hc
          exact this (by simp [hc])
        simp only [List.find?_cons, hne]
        exact ih _ _ h

lemma selectEntries_append (env : Env γ ρ) : ∀ (l1 l2 : List AccountEntry) seen,
    selectEntries env seen (l1 ++ l2) = selectEntries env seen l1 ++
      selectEntries env
        (seen ++ (selectEntries env seen l1).map env.accountId) l2 := by
  intro l1
  induction l1 with
  | nil => intro l2 seen; simp [selectEntries]
  | cons f rest ih =>
    intro l2 seen
    simp only [List.cons_append, selectEntries]
    by_cases hf : env.accountId f ∈ seen
    · rw [if_pos hf, if_pos hf]
      exact ih l2 seen
    · rw [if_neg hf, if_neg hf]
      simp only [List.map_cons, List.cons_append, List.append_eq]
      rw [ih]
      simp [List.append_assoc]

lemma mem_selectEntries_first (env : Env γ ρ) (pre post : List AccountEntry)
    (e : AccountEntry) (seen : List String)
    (hseen : env.accountId e ∉ seen)
    (hpre : ∀ f ∈ pre, env.accountId f ≠ env.accountId e) :
    e ∈ selectEntries env seen (pre ++ e :: post) := by
  rw [selectEntries_append]
  apply List.mem_append_right
  have hnot : env.accountId e ∉
      seen ++ (selectEntries env seen pre).map env.accountId := by
    simp only [List.mem_append, List.mem_map]
    rintro (h | ⟨f, hf, hid⟩)
    · exact hseen h
    · exact hpre f (mem_selectEntries_subset env pre seen f hf) hid
  simp only [selectEntries]
  rw [if_neg hnot]
  exact List.mem_cons_self _ _

lemma importCliAccounts_ok_shape (env : Env γ ρ) : ∀ config acc out,
    importCliAccounts env acc config = .ok out →
    out = acc ++ (selectEntries env (acc.map fun a => a.account_id) config).map
      (mkAccountOut env) := by
  intro config
  induction config with
  | nil =>
    intro acc out h
    simp only [importCliAccounts, Except.ok.injEq] at h
    subst h
    simp [selectEntries]
  | cons e rest ih =>
    intro acc out h
    simp only [importCliAccounts] at h
    by_cases he : env.accountId e ∈ acc.map fun a => a.account_id
    · rw [if_pos he] at h
      rw [ih _ _ h]
      simp only [selectEntries]
      rw [if_pos he]
    · rw [if_neg he] at h
      by_cases hv : getValidRegions (env.availableRegions e) e.regions = []
      · rw [if_pos hv] at h
        simp at h
      · rw [if_neg hv] at h
        have hmap : (acc ++ [mkAccountOut env e]).map (fun a => a.account_id) =
            (acc.map fun a => a.account_id) ++ [env.accountId e] := by
          simp [mkAccountOut]
        rw [ih _ _ h, hmap]
        simp only [selectEntries]
        rw [if_neg he]
        simp [List.append_assoc]

lemma importCliAccounts_ok_valid (env : Env γ ρ) : ∀ config acc out,
    importCliAccounts env acc config = .ok out →
    ∀ e ∈ selectEntries env (acc.map fun a => a.account_id) config,
      getValidRegions (env.availableRegions e) e.regions ≠ [] := by
  intro config
  induction config with
  | nil => intro acc out _ e he; simp [selectEntries] at he
  | cons f rest ih =>
    intro acc out h e he
    simp only [importCliAccounts] at h
    simp only [selectEntries] at he
    by_cases hf : env.accountId f ∈ acc.map fun a => a.account_id
    · rw [if_pos hf] at h he
      exact ih _ _ h e he
    · rw [if_neg hf] at h he
      by_cases hv : getValidRegions (env.availableRegions f) f.regions = []
      · rw [if_pos hv] at h
        simp at h
      · rw [if_neg hv] at h
        rcases List.mem_cons.mp he with hef | hef
        · exact hef ▸ hv
        · have hmap : (acc ++ [mkAccountOut env f]).map (fun a => a.account_id) =
              (acc.map fun a => a.account_id) ++ [env.accountId f] := by
            simp [mkAccountOut]
          have := ih _ _ h
          rw [hmap] at this
          exact this e hef

lemma importCliAccounts_error_msg (env : Env γ ρ) : ∀ config acc s,
    importCliAccounts env acc config = .error s →
    s = "No valid AWS region found" := by
  intro config
  induction config with
  | nil => intro acc s h; simp [importCliAccounts] at h
  | cons e rest ih =>
    intro acc s h
    simp only [importCliAccounts] at h
    by_cases he : env.accountId e ∈ acc.map fun a => a.account_id
    · rw [if_pos he] at h
      exact ih _ _ h
    · rw [if_neg he] at h
      by_cases hv : getValidRegions (env.availableRegions e) e.regions = []
      · rw [if_pos hv] at h
        simp only [Except.error.injEq] at h
        exact h.symm
      · rw [if_neg hv] at h
        exact ih _ _ h

lemma importCli_ok_accounts (env : Env γ ρ) (config : List AccountEntry)
    (out : Output γ ρ) (h : importCli env config = .ok out) :
    out.parser_version = PARSER_VERSION ∧
    out.accounts = (selectEntries env [] config).map (mkAccountOut env) := by
  simp only [importCli] at h
  cases hacc : importCliAccounts env [] config with
  | error s => rw [hacc] at h; simp at h
  | ok accounts =>
    rw [hacc] at h
    simp only [Except.ok.injEq] at h
    subst h
    refine ⟨rfl, ?_⟩
    have := importCliAccounts_ok_shape env config [] accounts hacc
    simpa using this

lemma mkAccountOut_region_names (env : Env γ ρ) (e : AccountEntry) :
    (mkAccountOut env e).regions.map (fun x => x.region_name) =
      firstDedupFrom [] (getValidRegions (env.availableRegions e) e.regions) := by
  simp only [mkAccountOut, buildRegions_eq, List.map_nil]
  rw [List.nil_append, List.map_map]
  have hcomp : ((fun x : RegionOut ρ => x.region_name) ∘
      fun r => (⟨r, env.regionServices e r⟩ : RegionOut ρ)) = id := rfl
  rw [hcomp, List.map_id]

/-- C7: the `parser_version` clause of the output schema accepts exactly
the integer `PARSER_VERSION` (its `minimum` and `maximum` are both that
constant, so any strictly smaller or strictly larger value — and any
non-integer — is rejected), and every document `import_cli` returns
carries exactly that value. -/
theorem claim_C7 :
    (∀ j, outputSchemaParserVersionOk j = true ↔ j = Json.int PARSER_VERSION) ∧
    (∀ (γ ρ : Type) (env : Env γ ρ) config out,
        importCli env config = .ok out →
        out.parser_version = PARSER_VERSION) := by
  constructor
  · intro j
    cases j with
    | int n =>
      simp only [outputSchemaParserVersionOk, Bool.and_eq_true, decide_eq_true_eq,
        Json.int.injEq]
      omega
    | str s => simp [outputSchemaParserVersionOk]
    | bool b => simp [outputSchemaParserVersionOk]
    | arr l => simp [outputSchemaParserVersionOk]
    | obj props => simp [outputSchemaParserVersionOk]
    | null => simp [outputSchemaParserVersionOk]
  · intro γ ρ env config out h
    exact (importCli_ok_accounts env config out h).1

/-- Witness for C7: the schema clause at the value 8, and the
`parser_version` of the document returned on the concrete fixture. -/
theorem claim_C7_witness :
    (outputSchemaParserVersionOk (Json.int 8) = true ↔
      Json.int 8 = Json.int PARSER_VERSION) ∧
    witOut.parser_version = PARSER_VERSION :=
  ⟨claim_C7.1 (Json.int 8),
   claim_C7.2 Nat Nat witEnv witConfig witOut (by rfl)⟩

/-- C8: in every document `import_cli` returns, account ids are unique
across the `accounts` list (a duplicate account entry is skipped, so
each account id contributes exactly one entry), and region names are
unique within each account's `regions` list (a duplicate valid region
is skipped). -/
theorem claim_C8 (γ ρ : Type) (env : Env γ ρ) (config : List AccountEntry)
    (out : Output γ ρ) (h : importCli env config = .ok out) :
    (out.accounts.map fun a => a.account_id).Nodup ∧
    ∀ a ∈ out.accounts, (a.regions.map fun x => x.region_name).Nodup := by
  obtain ⟨-, hacc⟩ := importCli_ok_accounts env config out h
  constructor
  · rw [hacc, List.map_map]
    have hcomp : ((fun a : AccountOut γ ρ => a.account_id) ∘ mkAccountOut env) =
        env.accountId := rfl
    rw [hcomp, selectEntries_map_id]
    exact firstDedupFrom_nodup _ _
  · intro a ha
    rw [hacc] at ha
    obtain ⟨e, _, hmk⟩ := List.mem_map.mp ha
    rw [← hmk, mkAccountOut_region_names]
    exact firstDedupFrom_nodup _ _

/-- Witness for C8 on the fixture configuration, which contains a
duplicate account id and a duplicate region. -/
theorem claim_C8_witness :
    (witOut.accounts.map fun a => a.account_id).Nodup ∧
    ∀ a ∈ witOut.accounts,
      (a.regions.map fun x => x.region_name).Nodup :=
  claim_C8 Nat Nat witEnv witConfig witOut (by rfl)

/-- C9: in every document `import_cli` returns, each output account
stems from a configuration entry and its regional output covers exactly
the configured regions present in the provider's published region list
(invalid names are dropped and produce no regional output); and if a
configuration entry that is not skipped as a duplicate has no valid
region at all, `import_cli` raises `ValueError("No valid AWS region
found")` and returns no document. -/
theorem claim_C9 (γ ρ : Type) (env : Env γ ρ) (config : List AccountEntry) :
    (∀ out, importCli env config = .ok out →
      ∀ a ∈ out.accounts, ∃ e, e ∈ config ∧ env.accountId e = a.account_id ∧
        ∀ r, (r ∈ a.regions.map fun x => x.region_name) ↔
          (r ∈ e.regions ∧ r ∈ env.availableRegions e)) ∧
    (∀ pre e post, config = pre ++ e :: post →
      (∀ f ∈ pre, env.accountId f ≠ env.accountId e) →
      getValidRegions (env.availableRegions e) e.regions = [] →
      importCli env config = .error "No valid AWS region found") := by
  constructor
  · intro out h a ha
    obtain ⟨-, hacc⟩ := importCli_ok_accounts env config out h
    rw [hacc] at ha
    obtain ⟨e, he, hmk⟩ := List.mem_map.mp ha
    refine ⟨e, mem_selectEntries_subset env config [] e he, ?_, ?_⟩
    · rw [← hmk]; rfl
    · intro r
      rw [← hmk, mkAccountOut_region_names, mem_firstDedupFrom]
      simp only [List.not_mem_nil, not_false_iff, and_true]
      simp [getValidRegions, List.mem_filter]
  · intro pre e post hconfig hpre hvalid
    cases hres : importCli env config with
    | error s =>
      have : s = "No valid AWS region found" := by
        simp only [importCli] at hres
        cases hacc : importCliAccounts env [] config with
        | error s2 =>
          rw [hacc] at hres
          simp only [Except.error.injEq] at hres
          exact hres ▸ importCliAccounts_error_msg env config [] s2 hacc
        | ok accounts => rw [hacc] at hres; simp at hres
      rw [this]
    | ok out =>
      exfalso
      simp only [importCli] at hres
      cases hacc : importCliAccounts env [] config with
      | error s2 => rw [hacc] at hres; simp at hres
      | ok accounts =>
        have hsel : e ∈ selectEntries env [] config := by
          rw [hconfig]
          exact mem_selectEntries_first env pre post e []
            (List.not_mem_nil _) hpre
        have := importCliAccounts_ok_valid env config [] accounts hacc e
          (by simpa using hsel)
        exact this hvalid

/-- Witness for C9: the valid-region characterization on the fixture
document, and the fatal error on a configuration whose only account has
no valid region. -/
theorem claim_C9_witness :
    (∀ a ∈ witOut.accounts, ∃ e, e ∈ witConfig ∧
      witEnv.accountId e = a.account_id ∧
      ∀ r, (r ∈ a.regions.map fun x => x.region_name) ↔
        (r ∈ e.regions ∧ r ∈ witEnv.availableRegions e)) ∧
    importCli witEnv witConfigBad = .error "No valid AWS region found" :=
  ⟨(claim_C9 Nat Nat witEnv witConfig).1 witOut (by rfl),
   (claim_C9 Nat Nat witEnv witConfigBad).2 [] ⟨"AKIA9", "s", ["nowhere"]⟩ []
     (by rfl) (by simp) (by rfl)⟩

/-- C10: in every document `import_cli` returns, the `accounts` list is
the first-occurrence deduplication, in configuration order, of the
entries' resolved account ids; and each output account's `regions` list
is the first-occurrence deduplication, in configured order, of the valid
regions of the first configuration entry resolving to that account id. -/
theorem claim_C10 (γ ρ : Type) (env : Env γ ρ) (config : List AccountEntry)
    (out : Output γ ρ) (h : importCli env config = .ok out) :
    out.accounts.map (fun a => a.account_id) =
      firstDedupFrom [] (config.map env.accountId) ∧
    ∀ a ∈ out.accounts, ∀ e,
      config.find? (fun f => env.accountId f == a.account_id) = some e →
      a.regions =
        (firstDedupFrom []
            (getValidRegions (env.availableRegions e) e.regions)).map
          (fun r => ⟨r, env.regionServices e r⟩) := by
  obtain ⟨-, hacc⟩ := importCli_ok_accounts env config out h
  constructor
  · rw [hacc, List.map_map]
    have hcomp : ((fun a : AccountOut γ ρ => a.account_id) ∘ mkAccountOut env) =
        env.accountId := rfl
    rw [hcomp, selectEntries_map_id]
  · intro a ha e hfind
    rw [hacc] at ha
    obtain ⟨e0, he0, hmk⟩ := List.mem_map.mp ha
    have hid : a.account_id = env.accountId e0 := by rw [← hmk]; rfl
    have hfind0 : config.find? (fun f => env.accountId f == env.accountId e0) =
        some e0 := selectEntries_find env config [] e0 he0
    rw [hid] at hfind
    rw [hfind0] at hfind
    obtain rfl : e = e0 := (Option.some.injEq _ _).mp hfind.symm
    rw [← hmk]
    simp only [mkAccountOut, buildRegions_eq, List.map_nil, List.nil_append]

/-- Witness for C10 on the fixture configuration. -/
theorem claim_C10_witness :
    witOut.accounts.map (fun a => a.account_id) =
      firstDedupFrom [] (witConfig.map witEnv.accountId) ∧
    ∀ a ∈ witOut.accounts, ∀ e,
      witConfig.find? (fun f => witEnv.accountId f == a.account_id) = some e →
      a.regions =
        (firstDedupFrom []
            (getValidRegions (witEnv.availableRegions e) e.regions)).map
          (fun r => ⟨r, witEnv.regionServices e r⟩) :=
  claim_C10 Nat Nat witEnv witConfig witOut (by rfl)

/-! ### Enrichment tasks (claim C3) -/

lemma s3OptField_notOther (o : SubOutcome β) (h : subNotOther o) :
    s3OptField o = .ok (subOpt o) := by
  cases o with
  | ok v => rfl
  | clientError c => rfl
  | keyError => rfl
  | otherExc e => exact absurd rfl (h e)

lemma s3PublicField_notOther (o : SubOutcome Bool) (h : subNotOther o) :
    s3PublicField o = .ok (subPublic o) := by
  cases o with
  | ok v => rfl
  | clientError c => rfl
  | keyError => rfl
  | otherExc e => exact absurd rfl (h e)

lemma iamLoginProfileField_okOrNoSuch (o : SubOutcome β)
    (h : subOkOrNoSuch o) : iamLoginProfileField o = .ok (subOpt o) := by
  rcases h with ⟨v, rfl⟩ | rfl
  · rfl
  · rfl

lemma s3EnrichBuckets_notOther (api : S3Api β)
    (h : ∀ name, subNotOther (api.getBucketEncryption name) ∧
      subNotOther (api.getBucketPolicyStatus name) ∧
      subNotOther (api.getBucketPolicy name) ∧
      subNotOther (api.getBucketTagging name)) :
    ∀ names, s3EnrichBuckets api names = .ok (names.map fun name =>
      ⟨name, subOpt (api.getBucketEncryption name),
        subPublic (api.getBucketPolicyStatus name),
        subOpt (api.getBucketPolicy name),
        subOpt (api.getBucketTagging name)⟩) := by
  intro names
  induction names with
  | nil => rfl
  | cons name rest ih =>
    obtain ⟨h1, h2, h3, h4⟩ := h name
    simp only [s3EnrichBuckets, s3OptField_notOther _ h1,
      s3PublicField_notOther _ h2, s3OptField_notOther _ h3,
      s3OptField_notOther _ h4, ih, List.map_cons]
    rfl

/-- Counterexample to C3 as stated: in the S3 bucket task, a bucket
policy lookup failing with the unexpected provider error
`"AccessDenied"` (not a missing-sub-resource signal) does NOT propagate
out of the task — the task completes normally, recording the policy as
absent, because the source's `except (KeyError, ClientError)` clauses
catch every `ClientError` regardless of its code. -/
theorem claim_C3_counterexample :
    witS3Api.getBucketPolicy "bucketA" = .clientError "AccessDenied" ∧
    "AccessDenied" ≠ "NoSuchEntity" ∧
    s3apiListBuckets witS3Api = .ok [⟨"bucketA", some 1, true, none, none⟩] := by
  refine ⟨rfl, by decide, by rfl⟩

/-- C3 (amended): in the IAM user task, a login-profile lookup failing
with `"NoSuchEntity"` is recorded as absence without failing the task,
and any other `ClientError` propagates out of the task; in the S3 bucket
task, however, every `ClientError` or `KeyError` in a sub-resource
lookup — unexpected provider errors included — is tolerated and recorded
as absence (`Public` set to `False`, the other sub-fields omitted), and
only exceptions outside those two classes propagate. -/
theorem claim_C3 :
    (∀ (β : Type) (users : List String) (glp : String → SubOutcome β),
      (∀ u ∈ users, subOkOrNoSuch (glp u)) →
      iamListUsersLogin users glp =
        .ok (users.map fun u => (u, subOpt (glp u)))) ∧
    (∀ (β : Type) (pre post : List String) (u : String)
        (glp : String → SubOutcome β) (c : String),
      (∀ w ∈ pre, subOkOrNoSuch (glp w)) →
      glp u = .clientError c → c ≠ "NoSuchEntity" →
      iamListUsersLogin (pre ++ u :: post) glp = .error c) ∧
    (∀ (β : Type) (api : S3Api β),
      (∀ name, subNotOther (api.getBucketEncryption name) ∧
        subNotOther (api.getBucketPolicyStatus name) ∧
        subNotOther (api.getBucketPolicy name) ∧
        subNotOther (api.getBucketTagging name)) →
      s3apiListBuckets api = .ok (api.buckets.map fun name =>
        ⟨name, subOpt (api.getBucketEncryption name),
          subPublic (api.getBucketPolicyStatus name),
          subOpt (api.getBucketPolicy name),
          subOpt (api.getBucketTagging name)⟩)) := by
  refine ⟨?_, ?_, ?_⟩
  · intro β users glp h
    induction users with
    | nil => rfl
    | cons u rest ih =>
      simp only [iamListUsersLogin,
        iamLoginProfileField_okOrNoSuch _ (h u (List.mem_cons_self _ _)),
        ih (fun w hw => h w (List.mem_cons_of_mem _ hw)), List.map_cons]
      rfl
  · intro β pre post u glp c hpre hu hc
    induction pre with
    | nil =>
      have hfield : iamLoginProfileField (glp u) = .error c := by
        rw [hu]
        simp only [iamLoginProfileField]
        rw [if_neg hc]
      simp only [List.nil_append, iamListUsersLogin, hfield]
      rfl
    | cons w rest ih =>
      have hfield := iamLoginProfileField_okOrNoSuch (glp w)
        (hpre w (List.mem_cons_self _ _))
      simp only [List.cons_append, List.append_eq, iamListUsersLogin, hfield,
        ih fun w2 hw2 => hpre w2 (List.mem_cons_of_mem _ hw2)]
      rfl
  · intro β api h
    exact s3EnrichBuckets_notOther api h api.buckets

/-- Witness for C3 (amended) at concrete oracles: a universally missing
login profile is tolerated; an `"AccessDenied"` login-profile failure
fails the IAM task; the S3 fixture task completes with absence markers. -/
theorem claim_C3_witness :
    iamListUsersLogin ["alice"] witNoSuch =
      .ok (["alice"].map fun u => (u, subOpt (witNoSuch u))) ∧
    iamListUsersLogin (["alice"] ++ "bob" :: []) witMixed =
      .error "AccessDenied" ∧
    s3apiListBuckets witS3Api = .ok (witS3Api.buckets.map fun name =>
      ⟨name, subOpt (witS3Api.getBucketEncryption name),
        subPublic (witS3Api.getBucketPolicyStatus name),
        subOpt (witS3Api.getBucketPolicy name),
        subOpt (witS3Api.getBucketTagging name)⟩) := by
  refine ⟨claim_C3.1 Nat ["alice"] witNoSuch ?_,
    claim_C3.2.1 Nat ["alice"] [] "bob" witMixed "AccessDenied" ?_ (by rfl)
      (by decide),
    claim_C3.2.2 Nat witS3Api ?_⟩
  · intro u hu
    simp only [List.mem_singleton] at hu
    subst hu
    exact Or.inr rfl
  · intro w hw
    simp only [List.mem_singleton] at hw
    subst hw
    exact Or.inr rfl
  · intro name
    refine ⟨?_, ?_, ?_, ?_⟩ <;> intro e <;> simp [witS3Api]

/-! ### Task scheduler merge (claim C6) -/

lemma getk_setk_self (d : List (String × β)) (k : String) (v : β) :
    getk (setk d k v) k = some v := by
  induction d with
  | nil => simp [setk, getk]
  | cons kv rest ih =>
    obtain ⟨k2, v2⟩ := kv
    simp only [setk]
    by_cases h : k2 = k
    · rw [if_pos h]
      simp [getk]
    · rw [if_neg h]
      simp only [getk]
      rw [if_neg h]
      exact ih

lemma getk_setk_ne (d : List (String × β)) (k k2 : String) (v : β)
    (h : k ≠ k2) : getk (setk d k v) k2 = getk d k2 := by
  induction d with
  | nil =>
    simp only [setk, getk]
    rw [if_neg h]
  | cons kv rest ih =>
    obtain ⟨k3, v3⟩ := kv
    simp only [setk]
    by_cases h3 : k3 = k
    · rw [if_pos h3]
      subst h3
      simp only [getk]
      rw [if_neg h, if_neg h]
    · rw [if_neg h3]
      simp only [getk]
      by_cases h32 : k3 = k2
      · rw [if_pos h32, if_pos h32]
      · rw [if_neg h32, if_neg h32]
        exact ih

lemma lookupLeafPath_nil (p : List String) :
    lookupLeafPath p ([] : List (String × PyObj α)) = none := by
  match p with
  | [] => rfl
  | [k] => rfl
  | k :: k2 :: rest => rfl

lemma fresh_nil {p : List String} (h : p ≠ []) :
    Fresh p ([] : List (String × PyObj α)) := by
  match p with
  | [] => exact absurd rfl h
  | [k] => simp [Fresh, getk]
  | k :: k2 :: rest => exact Or.inl rfl

lemma countLeaves_setk_absent (d : List (String × PyObj α)) (k : String)
    (x : PyObj α) (h : getk d k = none) :
    countLeaves (setk d k x) = countLeaves d + objLeafCount x := by
  induction d with
  | nil => simp [setk, countLeaves]
  | cons kv rest ih =>
    obtain ⟨k2, o⟩ := kv
    simp only [getk] at h
    by_cases h2 : k2 = k
    · rw [if_pos h2] at h
      exact absurd h (by simp)
    · rw [if_neg h2] at h
      simp only [setk]
      rw [if_neg h2]
      simp only [countLeaves]
      rw [ih h]
      omega

lemma countLeaves_setk_present (d : List (String × PyObj α)) (k : String)
    (x y : PyObj α) (h : getk d k = some y) :
    countLeaves (setk d k x) + objLeafCount y =
      countLeaves d + objLeafCount x := by
  induction d with
  | nil => simp [getk] at h
  | cons kv rest ih =>
    obtain ⟨k2, o⟩ := kv
    simp only [getk] at h
    by_cases h2 : k2 = k
    · rw [if_pos h2] at h
      obtain rfl : o = y := by injection h
      simp only [setk]
      rw [if_pos h2]
      simp only [countLeaves]
      omega
    · rw [if_neg h2] at h
      simp only [setk]
      rw [if_neg h2]
      simp only [countLeaves]
      have := ih h
      omega

lemma mergeResult_ok_of_fresh :
    ∀ (p : List String) (obj : List (String × PyObj α)) (v : α),
      Fresh p obj → ∃ out, mergeResult p obj v = .ok out := by
  intro p
  induction p with
  | nil => intro obj v h; exact absurd h (by simp [Fresh])
  | cons a q ih =>
    intro obj v h
    cases q with
    | nil => exact ⟨_, rfl⟩
    | cons a2 q2 =>
      simp only [Fresh] at h
      rcases h with hnone | ⟨sub, hsub, hfresh⟩
      · obtain ⟨out2, hout2⟩ := ih [] v (fresh_nil (by simp))
        simp only [mergeResult, hnone, hout2]
        exact ⟨_, rfl⟩
      · obtain ⟨out2, hout2⟩ := ih sub v hfresh
        simp only [mergeResult, hsub, hout2]
        exact ⟨_, rfl⟩

lemma lookup_mergeResult_self :
    ∀ (p : List String) (obj : List (String × PyObj α)) (v : α) out,
      Fresh p obj → mergeResult p obj v = .ok out →
      lookupLeafPath p out = some v := by
  intro p
  induction p with
  | nil => intro obj v out h _; exact absurd h (by simp [Fresh])
  | cons a q ih =>
    intro obj v out h hm
    cases q with
    | nil =>
      simp only [mergeResult, Except.ok.injEq] at hm
      subst hm
      simp only [lookupLeafPath, getk_setk_self]
    | cons a2 q2 =>
      simp only [Fresh] at h
      simp only [mergeResult] at hm
      rcases h with hnone | ⟨sub, hsub, hfresh⟩
      · simp only [hnone] at hm
        cases hrec : mergeResult (a2 :: q2) ([] : List (String × PyObj α)) v with
        | error e => simp [hrec] at hm
        | ok sub2 =>
          simp only [hrec, Except.ok.injEq] at hm
          subst hm
          simp only [lookupLeafPath, getk_setk_self]
          exact ih [] v sub2 (fresh_nil (by simp)) hrec
      · simp only [hsub] at hm
        cases hrec : mergeResult (a2 :: q2) sub v with
        | error e => simp [hrec] at hm
        | ok sub2 =>
          simp only [hrec, Except.ok.injEq] at hm
          subst hm
          simp only [lookupLeafPath, getk_setk_self]
          exact ih sub v sub2 hfresh hrec

lemma lookup_mergeResult_disjoint :
    ∀ (p : List String) (obj : List (String × PyObj α)) (v : α) out
      (q : List String),
      mergeResult p obj v = .ok out → PathsDisjoint p q →
      lookupLeafPath q out = lookupLeafPath q obj := by
  intro p
  induction p with
  | nil => intro obj v out q hm _; simp [mergeResult] at hm
  | cons a p2 ih =>
    intro obj v out q hm hd
    obtain ⟨hd1, hd2⟩ := hd
    cases p2 with
    | nil =>
      simp only [mergeResult, Except.ok.injEq] at hm
      subst hm
      match q with
      | [] => simp [lookupLeafPath]
      | [b] =>
        have hab : a ≠ b := by
          intro hab
          subst hab
          exact hd1 (List.prefix_refl _)
        simp only [lookupLeafPath, getk_setk_ne _ _ _ _ hab]
      | b :: b2 :: q2 =>
        by_cases hab : a = b
        · subst hab
          exact absurd ⟨b2 :: q2, rfl⟩ hd1
        · simp only [lookupLeafPath, getk_setk_ne _ _ _ _ hab]
    | cons a2 p3 =>
      simp only [mergeResult] at hm
      cases hget : getk obj a with
      | none =>
        simp only [hget] at hm
        cases hrec : mergeResult (a2 :: p3) ([] : List (String × PyObj α)) v with
        | error e => simp [hrec] at hm
        | ok sub2 =>
          simp only [hrec, Except.ok.injEq] at hm
          subst hm
          match q with
          | [] => simp [lookupLeafPath]
          | [b] =>
            by_cases hab : a = b
            · subst hab
              exact absurd ⟨a2 :: p3, rfl⟩ hd2
            · simp only [lookupLeafPath, getk_setk_ne _ _ _ _ hab]
          | b :: b2 :: q2 =>
            by_cases hab : a = b
            · subst hab
              have hdt : PathsDisjoint (a2 :: p3) (b2 :: q2) := by
                constructor
                · intro hpre
                  exact hd1 (List.cons_prefix_cons.mpr ⟨rfl, hpre⟩)
                · intro hpre
                  exact hd2 (List.cons_prefix_cons.mpr ⟨rfl, hpre⟩)
              simp only [lookupLeafPath, getk_setk_self, hget]
              rw [ih [] v sub2 (b2 :: q2) hrec hdt]
              exact lookupLeafPath_nil _
            · simp only [lookupLeafPath, getk_setk_ne _ _ _ _ hab]
      | some o =>
        cases o with
        | leaf w => simp [hget] at hm
        | dict sub =>
          simp only [hget] at hm
          cases hrec : mergeResult (a2 :: p3) sub v with
          | error e => simp [hrec] at hm
          | ok sub2 =>
            simp only [hrec, Except.ok.injEq] at hm
            subst hm
            match q with
            | [] => simp [lookupLeafPath]
            | [b] =>
              by_cases hab : a = b
              · subst hab
                exact absurd ⟨a2 :: p3, rfl⟩ hd2
              · simp only [lookupLeafPath, getk_setk_ne _ _ _ _ hab]
            | b :: b2 :: q2 =>
              by_cases hab : a = b
              · subst hab
                have hdt : PathsDisjoint (a2 :: p3) (b2 :: q2) := by
                  constructor
                  · intro hpre
                    exact hd1 (List.cons_prefix_cons.mpr ⟨rfl, hpre⟩)
                  · intro hpre
                    exact hd2 (List.cons_prefix_cons.mpr ⟨rfl, hpre⟩)
                simp only [lookupLeafPath, getk_setk_self, hget]
                exact ih sub v sub2 (b2 :: q2) hrec hdt
              · simp only [lookupLeafPath, getk_setk_ne _ _ _ _ hab]

lemma lookup_mergeResult_pre :
    ∀ (p : List String) (obj : List (String × PyObj α)) (v : α) out
      (q : List String),
      mergeResult p obj v = .ok out → q <+: p → q ≠ p →
      lookupLeafPath q out = none := by
  intro p
  induction p with
  | nil => intro obj v out q hm _ _; simp [mergeResult] at hm
  | cons a p2 ih =>
    intro obj v out q hm hq hne
    cases q with
    | nil => rfl
    | cons b q2 =>
      obtain ⟨hba, hq2⟩ := List.cons_prefix_cons.mp hq
      subst hba
      have hne2 : q2 ≠ p2 := fun hc => hne (by rw [hc])
      cases p2 with
      | nil =>
        have : q2 = [] := List.prefix_nil.mp hq2
        exact absurd (by rw [this]) hne
      | cons a2 p3 =>
        simp only [mergeResult] at hm
        cases hget : getk obj b with
        | none =>
          simp only [hget] at hm
          cases hrec : mergeResult (a2 :: p3) ([] : List (String × PyObj α)) v with
          | error e => simp [hrec] at hm
          | ok sub2 =>
            simp only [hrec, Except.ok.injEq] at hm
            subst hm
            cases q2 with
            | nil => simp only [lookupLeafPath, getk_setk_self]
            | cons b2 q3 =>
              simp only [lookupLeafPath, getk_setk_self]
              exact ih [] v sub2 (b2 :: q3) hrec hq2 hne2
        | some o =>
          cases o with
          | leaf w => simp [hget] at hm
          | dict sub =>
            simp only [hget] at hm
            cases hrec : mergeResult (a2 :: p3) sub v with
            | error e => simp [hrec] at hm
            | ok sub2 =>
              simp only [hrec, Except.ok.injEq] at hm
              subst hm
              cases q2 with
              | nil => simp only [lookupLeafPath, getk_setk_self]
              | cons b2 q3 =>
                simp only [lookupLeafPath, getk_setk_self]
                exact ih sub v sub2 (b2 :: q3) hrec hq2 hne2

lemma lookup_mergeResult_ext :
    ∀ (p : List String) (obj : List (String × PyObj α)) (v : α) out
      (q : List String),
      mergeResult p obj v = .ok out → p <+: q → q ≠ p →
      lookupLeafPath q out = none := by
  intro p
  induction p with
  | nil => intro obj v out q hm _ _; simp [mergeResult] at hm
  | cons a p2 ih =>
    intro obj v out q hm hq hne
    cases q with
    | nil => rfl
    | cons b q2 =>
      obtain ⟨hba, hq2⟩ := List.cons_prefix_cons.mp hq
      subst hba
      have hne2 : q2 ≠ p2 := fun hc => hne (by rw [hc])
      cases p2 with
      | nil =>
        simp only [mergeResult, Except.ok.injEq] at hm
        subst hm
        cases q2 with
        | nil => exact absurd rfl hne2
        | cons b2 q3 => simp only [lookupLeafPath, getk_setk_self]
      | cons a2 p3 =>
        simp only [mergeResult] at hm
        have hq2ne : q2 ≠ [] := by
          intro hc
          rw [hc] at hq2
          exact absurd (List.prefix_nil.mp hq2) (by simp)
        obtain ⟨b2, q3, rfl⟩ : ∃ b2 q3, q2 = b2 :: q3 := by
          cases q2 with
          | nil => exact absurd rfl hq2ne
          | cons b2 q3 => exact ⟨b2, q3, rfl⟩
        cases hget : getk obj a with
        | none =>
          simp only [hget] at hm
          cases hrec : mergeResult (a2 :: p3) ([] : List (String × PyObj α)) v with
          | error e => simp [hrec] at hm
          | ok sub2 =>
            simp only [hrec, Except.ok.injEq] at hm
            subst hm
            simp only [lookupLeafPath, getk_setk_self]
            exact ih [] v sub2 (b2 :: q3) hrec hq2 hne2
        | some o =>
          cases o with
          | leaf w => simp [hget] at hm
          | dict sub =>
            simp only [hget] at hm
            cases hrec : mergeResult (a2 :: p3) sub v with
            | error e => simp [hrec] at hm
            | ok sub2 =>
              simp only [hrec, Except.ok.injEq] at hm
              subst hm
              simp only [lookupLeafPath, getk_setk_self]
              exact ih sub v sub2 (b2 :: q3) hrec hq2 hne2

lemma fresh_mergeResult :
    ∀ (p : List String) (obj : List (String × PyObj α)) (v : α) out
      (r : List String),
      Fresh r obj → mergeResult p obj v = .ok out → PathsDisjoint p r →
      Fresh r out := by
  intro p
  induction p with
  | nil => intro obj v out r _ hm _; simp [mergeResult] at hm
  | cons a p2 ih =>
    intro obj v out r hr hm hd
    obtain ⟨hd1, hd2⟩ := hd
    cases p2 with
    | nil =>
      simp only [mergeResult, Except.ok.injEq] at hm
      subst hm
      match r with
      | [] => exact absurd hr (by simp [Fresh])
      | [b] =>
        have hab : a ≠ b := by
          intro hc
          subst hc
          exact hd1 (List.prefix_refl _)
        simp only [Fresh] at hr ⊢
        rw [getk_setk_ne _ _ _ _ hab]
        exact hr
      | b :: b2 :: r3 =>
        have hab : a ≠ b := by
          intro hc
          subst hc
          exact hd1 ⟨b2 :: r3, rfl⟩
        simp only [Fresh] at hr ⊢
        rw [getk_setk_ne _ _ _ _ hab]
        exact hr
    | cons a2 p3 =>
      simp only [mergeResult] at hm
      cases hget : getk obj a with
      | none =>
        simp only [hget] at hm
        cases hrec : mergeResult (a2 :: p3) ([] : List (String × PyObj α)) v with
        | error e => simp [hrec] at hm
        | ok sub2 =>
          simp only [hrec, Except.ok.injEq] at hm
          subst hm
          match r with
          | [] => exact absurd hr (by simp [Fresh])
          | [b] =>
            have hab : a ≠ b := by
              intro hc
              subst hc
              exact hd2 ⟨a2 :: p3, rfl⟩
            simp only [Fresh] at hr ⊢
            rw [getk_setk_ne _ _ _ _ hab]
            exact hr
          | b :: b2 :: r3 =>
            by_cases hab : a = b
            · subst hab
              have hdt : PathsDisjoint (a2 :: p3) (b2 :: r3) := by
                constructor
                · intro hpre
                  exact hd1 (List.cons_prefix_cons.mpr ⟨rfl, hpre⟩)
                · intro hpre
                  exact hd2 (List.cons_prefix_cons.mpr ⟨rfl, hpre⟩)
              simp only [Fresh] at hr ⊢
              refine Or.inr ⟨sub2, ?_, ?_⟩
              · rw [getk_setk_self]
              · rcases hr with hrnone | ⟨sub, hsub, _⟩
                · exact ih [] v sub2 (b2 :: r3) (fresh_nil (by simp)) hrec hdt
                · rw [hget] at hsub
                  exact absurd hsub (by simp)
            · simp only [Fresh] at hr ⊢
              rw [getk_setk_ne _ _ _ _ hab]
              exact hr
      | some o =>
        cases o with
        | leaf w => simp [hget] at hm
        | dict sub =>
          simp only [hget] at hm
          cases hrec : mergeResult (a2 :: p3) sub v with
          | error e => simp [hrec] at hm
          | ok sub2 =>
            simp only [hrec, Except.ok.injEq] at hm
            subst hm
            match r with
            | [] => exact absurd hr (by simp [Fresh])
            | [b] =>
              have hab : a ≠ b := by
                intro hc
                subst hc
                exact hd2 ⟨a2 :: p3, rfl⟩
              simp only [Fresh] at hr ⊢
              rw [getk_setk_ne _ _ _ _ hab]
              exact hr
            | b :: b2 :: r3 =>
              by_cases hab : a = b
              · subst hab
                have hdt : PathsDisjoint (a2 :: p3) (b2 :: r3) := by
                  constructor
                  · intro hpre
                    exact hd1 (List.cons_prefix_cons.mpr ⟨rfl, hpre⟩)
                  · intro hpre
                    exact hd2 (List.cons_prefix_cons.mpr ⟨rfl, hpre⟩)
                simp only [Fresh] at hr ⊢
                refine Or.inr ⟨sub2, ?_, ?_⟩
                · rw [getk_setk_self]
                · rcases hr with hrnone | ⟨sub3, hsub3, hfr3⟩
                  · rw [hget] at hrnone
                    exact absurd hrnone (by simp)
                  · rw [hget] at hsub3
                    obtain rfl : sub = sub3 := by
                      have := hsub3
                      simp only [Option.some.injEq, PyObj.dict.injEq] at this
                      exact this
                    exact ih sub v sub2 (b2 :: r3) hfr3 hrec hdt
              · simp only [Fresh] at hr ⊢
                rw [getk_setk_ne _ _ _ _ hab]
                exact hr

lemma countLeaves_mergeResult :
    ∀ (p : List String) (obj : List (String × PyObj α)) (v : α) out,
      Fresh p obj → mergeResult p obj v = .ok out →
      countLeaves out = countLeaves obj + 1 := by
  intro p
  induction p with
  | nil => intro obj v out h _; exact absurd h (by simp [Fresh])
  | cons a p2 ih =>
    intro obj v out h hm
    cases p2 with
    | nil =>
      simp only [Fresh] at h
      simp only [mergeResult, Except.ok.injEq] at hm
      subst hm
      rw [countLeaves_setk_absent _ _ _ h]
      rfl
    | cons a2 p3 =>
      simp only [Fresh] at h
      simp only [mergeResult] at hm
      rcases h with hnone | ⟨sub, hsub, hfresh⟩
      · simp only [hnone] at hm
        cases hrec : mergeResult (a2 :: p3) ([] : List (String × PyObj α)) v with
        | error e => simp [hrec] at hm
        | ok sub2 =>
          simp only [hrec, Except.ok.injEq] at hm
          subst hm
          rw [countLeaves_setk_absent _ _ _ hnone]
          have := ih [] v sub2 (fresh_nil (by simp)) hrec
          simp only [countLeaves] at this
          simp only [objLeafCount]
          omega
      · simp only [hsub] at hm
        cases hrec : mergeResult (a2 :: p3) sub v with
        | error e => simp [hrec] at hm
        | ok sub2 =>
          simp only [hrec, Except.ok.injEq] at hm
          subst hm
          have hp := countLeaves_setk_present obj a (PyObj.dict sub2)
            (PyObj.dict sub) hsub
          have := ih sub v sub2 hfresh hrec
          simp only [objLeafCount] at hp
          omega

lemma fresh_lookup_none :
    ∀ (p : List String) (obj : List (String × PyObj α)),
      Fresh p obj → ∀ q, q <+: p → lookupLeafPath q obj = none := by
  intro p
  induction p with
  | nil => intro obj h; exact absurd h (by simp [Fresh])
  | cons a p2 ih =>
    intro obj h q hq
    cases q with
    | nil => rfl
    | cons b q2 =>
      obtain ⟨hba, hq2⟩ := List.cons_prefix_cons.mp hq
      subst hba
      cases p2 with
      | nil =>
        simp only [Fresh] at h
        have : q2 = [] := List.prefix_nil.mp hq2
        subst this
        simp only [lookupLeafPath, h]
      | cons a2 p3 =>
        simp only [Fresh] at h
        rcases h with hnone | ⟨sub, hsub, hfresh⟩
        · cases q2 with
          | nil => simp only [lookupLeafPath, hnone]
          | cons b2 q3 => simp only [lookupLeafPath, hnone]
        · cases q2 with
          | nil => simp only [lookupLeafPath, hsub]
          | cons b2 q3 =>
            simp only [lookupLeafPath, hsub]
            exact ih sub hfresh (b2 :: q3) hq2

lemma fresh_ext_lookup_none :
    ∀ (p : List String) (obj : List (String × PyObj α)),
      Fresh p obj → ∀ q, p <+: q → lookupLeafPath q obj = none := by
  intro p
  induction p with
  | nil => intro obj h; exact absurd h (by simp [Fresh])
  | cons a p2 ih =>
    intro obj h q hq
    cases q with
    | nil => rfl
    | cons b q2 =>
      obtain ⟨hba, hq2⟩ := List.cons_prefix_cons.mp hq
      subst hba
      cases p2 with
      | nil =>
        simp only [Fresh] at h
        cases q2 with
        | nil => simp only [lookupLeafPath, h]
        | cons b2 q3 => simp only [lookupLeafPath, h]
      | cons a2 p3 =>
        simp only [Fresh] at h
        have hq2ne : q2 ≠ [] := by
          intro hc
          rw [hc] at hq2
          exact absurd (List.prefix_nil.mp hq2) (by simp)
        obtain ⟨b2, q3, rfl⟩ : ∃ b2 q3, q2 = b2 :: q3 := by
          cases q2 with
          | nil => exact absurd rfl hq2ne
          | cons b2 q3 => exact ⟨b2, q3, rfl⟩
        rcases h with hnone | ⟨sub, hsub, hfresh⟩
        · simp only [lookupLeafPath, hnone]
        · simp only [lookupLeafPath, hsub]
          exact ih sub hfresh (b2 :: q3) hq2

lemma lookup_mergeResult_char (p : List String)
    (obj : List (String × PyObj α)) (v : α) out
    (hf : Fresh p obj) (hm : mergeResult p obj v = .ok out) :
    ∀ q w, lookupLeafPath q out = some w ↔
      ((q = p ∧ w = v) ∨ lookupLeafPath q obj = some w) := by
  intro q w
  by_cases hqp : q = p
  · subst hqp
    rw [lookup_mergeResult_self q obj v out hf hm]
    constructor
    · intro h
      exact Or.inl ⟨rfl, (Option.some.injEq _ _).mp h.symm⟩
    · rintro (⟨-, rfl⟩ | hcontr)
      · rfl
      · rw [fresh_lookup_none q obj hf q (List.prefix_refl _)] at hcontr
        exact absurd hcontr (by simp)
  · by_cases hd : PathsDisjoint p q
    · rw [lookup_mergeResult_disjoint p obj v out q hm hd]
      constructor
      · intro h
        exact Or.inr h
      · rintro (⟨hqp2, -⟩ | h)
        · exact absurd hqp2 hqp
        · exact h
    · simp only [PathsDisjoint, not_and_or, not_not] at hd
      rcases hd with hpq | hqp2
      · rw [lookup_mergeResult_ext p obj v out q hm hpq hqp]
        constructor
        · intro h
          exact absurd h (by simp)
        · rintro (⟨hqp2, -⟩ | h)
          · exact absurd hqp2 hqp
          · rw [fresh_ext_lookup_none p obj hf q hpq] at h
            exact absurd h (by simp)
      · rw [lookup_mergeResult_pre p obj v out q hm hqp2 hqp]
        constructor
        · intro h
          exact absurd h (by simp)
        · rintro (⟨hqp3, -⟩ | h)
          · exact absurd hqp3 hqp
          · rw [fresh_lookup_none p obj hf q hqp2] at h
            exact absurd h (by simp)

lemma mergeAll_spec :
    ∀ (tasks : List (Task α)) (obj : List (String × PyObj α)),
      (∀ t ∈ tasks, Fresh t.path obj) →
      tasks.Pairwise (fun s t => PathsDisjoint s.path t.path) →
      ∃ out, mergeAll tasks obj = .ok out ∧
        countLeaves out = countLeaves obj + tasks.length ∧
        ∀ p v, lookupLeafPath p out = some v ↔
          ((⟨p, v⟩ : Task α) ∈ tasks ∨ lookupLeafPath p obj = some v) := by
  intro tasks
  induction tasks with
  | nil =>
    intro obj _ _
    exact ⟨obj, rfl, by simp, by simp⟩
  | cons t rest ih =>
    intro obj hfresh hpair
    have hf : Fresh t.path obj := hfresh t (List.mem_cons_self _ _)
    obtain ⟨obj1, hobj1⟩ := mergeResult_ok_of_fresh t.path obj t.value hf
    have hdisj : ∀ f ∈ rest, PathsDisjoint t.path f.path :=
      (List.pairwise_cons.mp hpair).1
    have hfresh1 : ∀ f ∈ rest, Fresh f.path obj1 := fun f hfm =>
      fresh_mergeResult t.path obj t.value obj1 f.path
        (hfresh f (List.mem_cons_of_mem _ hfm)) hobj1 (hdisj f hfm)
    obtain ⟨out, hout, hcount, hchar⟩ :=
      ih obj1 hfresh1 (List.pairwise_cons.mp hpair).2
    refine ⟨out, ?_, ?_, ?_⟩
    · simp only [mergeAll, hobj1]
      exact hout
    · rw [hcount, countLeaves_mergeResult t.path obj t.value obj1 hf hobj1]
      simp only [List.length_cons]
      omega
    · intro p v
      rw [hchar p v, lookup_mergeResult_char t.path obj t.value obj1 hf hobj1 p v]
      constructor
      · rintro (h | ⟨hp, hv⟩ | h)
        · exact Or.inl (List.mem_cons_of_mem _ h)
        · subst hp
          subst hv
          exact Or.inl (List.mem_cons_self _ _)
        · exact Or.inr h
      · rintro (h | h)
        · rcases List.mem_cons.mp h with h | h
          · refine Or.inr (Or.inl ⟨?_, ?_⟩)
            · exact congrArg Task.path h
            · exact congrArg Task.value h
          · exact Or.inl h
        · exact Or.inr (Or.inr h)

/-- C6: for tasks whose 1-2 segment result paths are pairwise
non-colliding (neither path a prefix of the other: no shared one-segment
key, one-segment keys distinct from two-segment first segments, distinct
two-segment paths), `execute_tasks` succeeds, the merged output dict
holds exactly N leaf values — each task's value reachable at exactly its
own path — and any two completion orders of the same task set produce
outputs with identical path-to-value mappings. -/
theorem claim_C6 (α : Type) (tasks tasks2 : List (Task α))
    (hperm : tasks.Perm tasks2)
    (hlen : ∀ t ∈ tasks, t.path.length = 1 ∨ t.path.length = 2)
    (hpair : tasks.Pairwise (fun s t => PathsDisjoint s.path t.path)) :
    ∃ out out2, executeTasks tasks = .ok out ∧ executeTasks tasks2 = .ok out2 ∧
      countLeaves out = tasks.length ∧ countLeaves out2 = tasks.length ∧
      (∀ p v, lookupLeafPath p out = some v ↔ (⟨p, v⟩ : Task α) ∈ tasks) ∧
      (∀ p v, lookupLeafPath p out2 = some v ↔ lookupLeafPath p out = some v) := by
  have hne : ∀ t ∈ tasks, t.path ≠ [] := by
    intro t ht hc
    rcases hlen t ht with h | h <;> (rw [hc] at h; simp at h)
  obtain ⟨out, hout, hcount, hchar⟩ :=
    mergeAll_spec tasks [] (fun t ht => fresh_nil (hne t ht)) hpair
  have hsymm : ∀ {s t : Task α}, PathsDisjoint s.path t.path →
      PathsDisjoint t.path s.path := fun ⟨h1, h2⟩ => ⟨h2, h1⟩
  have hpair2 : tasks2.Pairwise (fun s t => PathsDisjoint s.path t.path) :=
    (hperm.pairwise_iff fun h => hsymm h).mp hpair
  have hne2 : ∀ t ∈ tasks2, t.path ≠ [] := fun t ht =>
    hne t (hperm.mem_iff.mpr ht)
  obtain ⟨out2, hout2, hcount2, hchar2⟩ :=
    mergeAll_spec tasks2 [] (fun t ht => fresh_nil (hne2 t ht)) hpair2
  have h0 : countLeaves ([] : List (String × PyObj α)) = 0 := rfl
  refine ⟨out, out2, hout, hout2, ?_, ?_, ?_, ?_⟩
  · rw [hcount]
    omega
  · rw [hcount2, hperm.length_eq]
    omega
  · intro p v
    rw [hchar p v, lookupLeafPath_nil p]
    simp
  · intro p v
    rw [hchar2 p v, hchar p v, lookupLeafPath_nil p]
    constructor
    · rintro (h | h)
      · exact Or.inl (hperm.mem_iff.mpr h)
      · exact absurd h (by simp)
    · rintro (h | h)
      · exact Or.inl (hperm.mem_iff.mp h)
      · exact absurd h (by simp)

/-- Witness for C6 on concrete non-colliding tasks in two completion
orders. -/
theorem claim_C6_witness :
    ∃ out out2, executeTasks witTasks = .ok out ∧
      executeTasks witTasks2 = .ok out2 ∧
      countLeaves out = witTasks.length ∧
      countLeaves out2 = witTasks.length ∧
      (∀ p v, lookupLeafPath p out = some v ↔
        (⟨p, v⟩ : Task Nat) ∈ witTasks) ∧
      (∀ p v, lookupLeafPath p out2 = some v ↔
        lookupLeafPath p out = some v) :=
  claim_C6 Nat witTasks witTasks2 (by decide) (by decide) (by decide)

end AwsImportCli
